import Mathlib

/-!
Verification of the implicit-key treap implementation in `treap/treap.go`.

The Go `node` struct (fields `value`, `size`, `priority`, `lson`, `rson`)
is embedded as the inductive `Tree`, with the constructor `nil` playing the
role of the nil `*node` pointer.  Go `int` becomes `Int`; the cached `size`
field is stored verbatim (it is *not* recomputed from the structure, so the
embedding can express stale sizes).  The Go `*Treap` handle, which may
itself be nil, becomes `Option Tree`: `none` is the nil handle, `some root`
a handle whose root pointer is `root` (possibly `Tree.nil`).

Mutating methods are embedded as state transformers `Treap → ... → Treap`;
the random priorities drawn by `rand.Int()` are passed in as explicit
arguments, so theorems quantifying over them cover every outcome of the
random draws.
-/

namespace TreapGo

/-- Go struct `node`: `value`, cached `size`, `priority`, children. -/
inductive Tree where
  | nil : Tree
  | node (value : Int) (size : Int) (priority : Int) (lson rson : Tree) : Tree
deriving DecidableEq, Repr

/-- Number of nodes actually present in a subtree (not the cached field). -/
def count : Tree → Nat
  | .nil => 0
  | .node _ _ _ l r => count l + count r + 1

/-- The sequence represented by a subtree: in-order traversal of values. -/
def inorder : Tree → List Int
  | .nil => []
  | .node v _ _ l r => inorder l ++ v :: inorder r

/-- Cached size read through a possibly-nil pointer (`0` for nil). -/
def csize : Tree → Int
  | .nil => 0
  | .node _ s _ _ _ => s

/-- Go `sync(n)`: recompute `n.size` from the children's cached sizes;
no-op on nil. -/
def sync : Tree → Tree
  | .nil => .nil
  | .node v _ p l r => .node v (1 + csize l + csize r) p l r

/-- Go `merge(n1, n2)`: if either side is nil return the other; otherwise
the root with strictly greater priority wins and the other side is merged
into its inner child slot, then the winner is re-synced. -/
def merge (n1 n2 : Tree) : Tree :=
  match n1, n2 with
  | .nil, n2 => n2
  | n1, .nil => n1
  | .node v1 s1 p1 l1 r1, .node v2 s2 p2 l2 r2 =>
    if p1 > p2 then
      sync (.node v1 s1 p1 l1 (merge r1 (.node v2 s2 p2 l2 r2)))
    else
      sync (.node v2 s2 p2 (merge (.node v1 s1 p1 l1 r1) l2) r2)
termination_by count n1 + count n2
decreasing_by
  · simp [count]; omega
  · simp [count]; omega

/-- Go `split(n, index)`.  Note the faithful translation of the recursion
into the right son: the code passes `index` unadjusted (`split(n.rson, index)`),
not `index - leftSize - 1`. -/
def split : Tree → Int → Tree × Tree
  | .nil, _ => (.nil, .nil)
  | .node v s p l r, index =>
    if index < 0 then (.nil, .node v s p l r)
    else if index ≥ s then (.node v s p l r, .nil)
    else
      let pos := index - csize l
      if pos < 0 then
        let res := split l index
        (res.1, sync (.node v s p res.2 r))
      else if pos > 0 then
        let res := split r index
        (sync (.node v s p l res.1), res.2)
      else
        (sync (.node v s p l .nil), r)

/-- One Go slice write `values[position] = v`; out-of-bounds is a panic,
modelled as `none`. -/
def writeAt (values : List Int) (position : Int) (v : Int) : Option (List Int) :=
  if 0 ≤ position ∧ position < (values.length : Int) then
    some (values.set position.toNat v)
  else none

/-- Go `export(values, position, n)`: recurse left, skip over the left
subtree's cached size, write this value, recurse right. -/
def exportRec (values : List Int) (position : Int) : Tree → Option (List Int)
  | .nil => some values
  | .node v _ _ l r => do
    let values1 ← exportRec values position l
    let values2 ← writeAt values1 (position + csize l) v
    exportRec values2 (position + csize l + 1) r

/-- Go `*Treap`: `none` is the nil handle, `some root` a handle owning `root`. -/
abbrev Treap := Option Tree

/-- A freshly allocated node `&node{value, size: 1, priority, nil, nil}`. -/
def leafNode (v p : Int) : Tree := .node v 1 p .nil .nil

/-- The chain `PushBack` builds: `vroot = merge(vroot, n)` for each value
(values paired with their freshly drawn priorities). -/
def chainBack (vps : List (Int × Int)) : Tree :=
  vps.foldl (fun acc vp => merge acc (leafNode vp.1 vp.2)) .nil

/-- Go `(t *Treap) PushBack(values...)`. -/
def PushBack (t : Treap) (vps : List (Int × Int)) : Treap :=
  match t with
  | none => none
  | some root => some (merge root (chainBack vps))

/-- The chain `PushFront` builds: `vroot = merge(n, vroot)` for each value. -/
def chainFront (vps : List (Int × Int)) : Tree :=
  vps.foldl (fun acc vp => merge (leafNode vp.1 vp.2) acc) .nil

/-- Go `(t *Treap) PushFront(values...)`. -/
def PushFront (t : Treap) (vps : List (Int × Int)) : Treap :=
  match t with
  | none => none
  | some root => some (merge (chainFront vps) root)

/-- Go `Create(values...)`: fresh handle with nil root, then `PushBack`. -/
def Create (vps : List (Int × Int)) : Treap := PushBack (some .nil) vps

/-- Go `Merge(t1, t2)`: nil handles short-circuit, otherwise merge roots. -/
def MergeT : Treap → Treap → Treap
  | none, t2 => t2
  | t1, none => t1
  | some r1, some r2 => some (merge r1 r2)

/-- Go `Split(t, index)`: nil handle gives two nil handles, otherwise two
fresh handles holding the two halves of `split`. -/
def SplitT : Treap → Int → Treap × Treap
  | none, _ => (none, none)
  | some root, index => (some (split root index).1, some (split root index).2)

/-- Go `(t *Treap) Insert(index, value)` with the drawn priority explicit. -/
def Insert (t : Treap) (index value prio : Int) : Treap :=
  match t with
  | none => none
  | some .nil => some (leafNode value prio)
  | some root =>
    if index ≤ 0 then PushFront (some root) [(value, prio)]
    else if index ≥ csize root - 1 then PushBack (some root) [(value, prio)]
    else
      let lr := split root (index - 1)
      let l := merge lr.1 (leafNode value prio)
      some (merge l lr.2)

/-- Go `(t *Treap) Cut(index_left, index_right)`. -/
def Cut (t : Treap) (il ir : Int) : Treap :=
  match t with
  | none => none
  | some .nil => some .nil
  | some root =>
    if il > ir then some root
    else if ir < 0 ∨ il ≥ csize root then some root
    else
      let lk := split root (il - 1)
      let xr := split lk.2 ir
      some (merge lk.1 xr.2)

/-- Go `(t *Treap) Delete(index)`. -/
def Delete (t : Treap) (i : Int) : Treap :=
  match t with
  | none => none
  | some .nil => some .nil
  | some root =>
    if i < 0 ∨ i ≥ csize root then some root
    else
      let lk := split root (i - 1)
      let xr := split lk.2 i
      some (merge lk.1 xr.2)

/-- Go `(t *Treap) Size()`: cached root size, 0 for nil handle or nil root. -/
def SizeT : Treap → Int
  | none => 0
  | some .nil => 0
  | some root => csize root

/-- The body of Go `Find`'s iterative descent, as structural recursion on
the node the loop variable `n` points to. -/
def findLoop : Tree → Int → Int
  | .nil, _ => 0
  | .node v _ _ l r, index =>
    let pos := index - csize l
    if pos < 0 then findLoop l index
    else if pos > 0 then findLoop r (index - csize l - 1)
    else v

/-- Go `(t *Treap) Find(index)`. -/
def FindT : Treap → Int → Int
  | none, _ => 0
  | some .nil, _ => 0
  | some root, index =>
    if index < 0 ∨ index ≥ csize root then 0
    else findLoop root index

/-- Go `(t *Treap) Export()`: `make([]int, t.root.size)` (panic if the cached
size is negative, modelled as `none`) then `export(values, 0, t.root)`. -/
def ExportT : Treap → Option (List Int)
  | none => some []
  | some .nil => some []
  | some root =>
    if csize root < 0 then none
    else exportRec (List.replicate (csize root).toNat 0) 0 root

/-- The size invariant of the spec: every present node's cached `size`
equals `1 + leftSize + rightSize` (children read through `csize`). -/
def sizeOKb : Tree → Bool
  | .nil => true
  | .node _ s _ l r => (s = 1 + csize l + csize r) && sizeOKb l && sizeOKb r

/-- `q ≤ p` for the root priority of a possibly-nil subtree. -/
def prioLe : Tree → Int → Bool
  | .nil, _ => true
  | .node _ _ q _ _, p => q ≤ p

/-- The max-heap invariant: every node's priority is ≥ each present child's. -/
def heapOKb : Tree → Bool
  | .nil => true
  | .node _ _ p l r => prioLe l p && prioLe r p && heapOKb l && heapOKb r

/-- Size invariant lifted to handles (vacuous for the nil handle). -/
def treapSizeOK : Treap → Bool
  | none => true
  | some root => sizeOKb root

/-- Heap invariant lifted to handles. -/
def treapHeapOK : Treap → Bool
  | none => true
  | some root => heapOKb root

/-!
Instrumented read operations for the frame claim: each is the same
statement-by-statement translation of the Go method, but additionally
threads the tree it reads through and returns it, rebuilding every node it
visited — so that "the method performs no write through any node pointer"
becomes the provable statement that the returned tree is the input tree.
-/

/-- Instrumented `Find` descent: returns the walked subtree alongside. -/
def findLoopS : Tree → Int → Tree × Int
  | .nil, _ => (.nil, 0)
  | .node v s p l r, index =>
    let pos := index - csize l
    if pos < 0 then
      let res := findLoopS l index
      (.node v s p res.1 r, res.2)
    else if pos > 0 then
      let res := findLoopS r (index - csize l - 1)
      (.node v s p l res.1, res.2)
    else (.node v s p l r, v)

/-- Instrumented Go `Find`. -/
def FindS : Treap → Int → Treap × Int
  | none, _ => (none, 0)
  | some .nil, _ => (some .nil, 0)
  | some root, index =>
    if index < 0 ∨ index ≥ csize root then (some root, 0)
    else
      let res := findLoopS root index
      (some res.1, res.2)

/-- Instrumented Go `Size`. -/
def SizeS : Treap → Treap × Int
  | none => (none, 0)
  | some .nil => (some .nil, 0)
  | some root => (some root, csize root)

/-- Instrumented Go `export`: returns the traversed subtree alongside the
written slice (`none` = panic). -/
def exportRecS (values : List Int) (position : Int) : Tree → Tree × Option (List Int)
  | .nil => (.nil, some values)
  | .node v s p l r =>
    let resL := exportRecS values position l
    match resL.2 with
    | none => (.node v s p resL.1 r, none)
    | some values1 =>
      match writeAt values1 (position + csize resL.1) v with
      | none => (.node v s p resL.1 r, none)
      | some values2 =>
        let resR := exportRecS values2 (position + csize resL.1 + 1) r
        (.node v s p resL.1 resR.1, resR.2)

/-- Instrumented Go `Export`. -/
def ExportS : Treap → Treap × Option (List Int)
  | none => (none, some [])
  | some .nil => (some .nil, some [])
  | some root =>
    if csize root < 0 then (some root, none)
    else
      let res := exportRecS (List.replicate (csize root).toNat 0) 0 root
      (some res.1, res.2)

/-- The treaps reachable from `Create` through the public API, for every
outcome of the random priority draws. -/
inductive Reachable : Treap → Prop where
  | create (vps : List (Int × Int)) : Reachable (Create vps)
  | mergeT {t1 t2 : Treap} : Reachable t1 → Reachable t2 → Reachable (MergeT t1 t2)
  | splitL {t : Treap} (i : Int) : Reachable t → Reachable (SplitT t i).1
  | splitR {t : Treap} (i : Int) : Reachable t → Reachable (SplitT t i).2
  | insert {t : Treap} (i v p : Int) : Reachable t → Reachable (Insert t i v p)
  | pushFront {t : Treap} (vps : List (Int × Int)) : Reachable t → Reachable (PushFront t vps)
  | pushBack {t : Treap} (vps : List (Int × Int)) : Reachable t → Reachable (PushBack t vps)
  | cut {t : Treap} (il ir : Int) : Reachable t → Reachable (Cut t il ir)
  | delete {t : Treap} (i : Int) : Reachable t → Reachable (Delete t i)

/-! ### Basic lemmas about the primitives -/

theorem inorder_sync (n : Tree) : inorder (sync n) = inorder n := by
  cases n <;> simp [sync, inorder]

theorem length_inorder (n : Tree) : (inorder n).length = count n := by
  induction n with
  | nil => simp [inorder, count]
  | node v s p l r ihl ihr => simp [inorder, count, ihl, ihr]; omega

theorem inorder_merge (a b : Tree) :
    inorder (merge a b) = inorder a ++ inorder b := by
  induction a, b using merge.induct with
  | case1 n2 => simp [merge, inorder]
  | case2 n1 h =>
    cases n1 with
    | nil => exact absurd rfl h
    | node v s p l r => simp [merge, inorder]
  | case3 v1 s1 p1 l1 r1 v2 s2 p2 l2 r2 hp ih =>
    rw [merge]
    simp only [if_pos hp, inorder_sync, inorder, ih]
    simp
  | case4 v1 s1 p1 l1 r1 v2 s2 p2 l2 r2 hp ih =>
    rw [merge]
    simp only [if_neg hp, inorder_sync, inorder, ih]
    simp

theorem merge_nil_left (n : Tree) : merge Tree.nil n = n := merge.eq_1 n

theorem merge_nil_right (n : Tree) : merge n Tree.nil = n := by
  cases n <;> rw [merge.eq_def]

theorem merge_node (v1 s1 p1 : Int) (l1 r1 : Tree) (v2 s2 p2 : Int) (l2 r2 : Tree) :
    merge (.node v1 s1 p1 l1 r1) (.node v2 s2 p2 l2 r2)
      = if p1 > p2 then sync (.node v1 s1 p1 l1 (merge r1 (.node v2 s2 p2 l2 r2)))
        else sync (.node v2 s2 p2 (merge (.node v1 s1 p1 l1 r1) l2) r2) := by
  rw [merge.eq_def]

theorem sizeOKb_sync_node (v s p : Int) (l r : Tree) :
    sizeOKb (sync (.node v s p l r)) = (sizeOKb l && sizeOKb r) := by
  simp [sync, sizeOKb]

theorem csize_eq_count {n : Tree} (h : sizeOKb n = true) :
    csize n = (count n : Int) := by
  induction n with
  | nil => simp [csize, count]
  | node v s p l r ihl ihr =>
    simp only [sizeOKb, Bool.and_eq_true, decide_eq_true_eq] at h
    rw [csize, h.1.1, ihl h.1.2, ihr h.2, count]
    push_cast
    ring

theorem sizeOKb_merge {a b : Tree} (ha : sizeOKb a = true) (hb : sizeOKb b = true) :
    sizeOKb (merge a b) = true := by
  induction a, b using merge.induct with
  | case1 n2 => simpa [merge] using hb
  | case2 n1 h =>
    cases n1 with
    | nil => exact absurd rfl h
    | node v s p l r => simpa [merge] using ha
  | case3 v1 s1 p1 l1 r1 v2 s2 p2 l2 r2 hp ih =>
    rw [merge]
    simp only [if_pos hp, sizeOKb_sync_node, Bool.and_eq_true]
    simp only [sizeOKb, Bool.and_eq_true] at ha
    exact ⟨ha.1.2, ih ha.2 hb⟩
  | case4 v1 s1 p1 l1 r1 v2 s2 p2 l2 r2 hp ih =>
    rw [merge]
    simp only [if_neg hp, sizeOKb_sync_node, Bool.and_eq_true]
    simp only [sizeOKb, Bool.and_eq_true] at hb
    exact ⟨ih ha hb.1.2, hb.2⟩

theorem prioLe_trans {t : Tree} {p q : Int} (h : prioLe t p = true) (hpq : p ≤ q) :
    prioLe t q = true := by
  cases t with
  | nil => rfl
  | node v s r l r' =>
    simp only [prioLe, decide_eq_true_eq] at h ⊢
    omega

theorem prioLe_merge {a b : Tree} {p : Int}
    (ha : prioLe a p = true) (hb : prioLe b p = true) :
    prioLe (merge a b) p = true := by
  cases a with
  | nil => simpa [merge] using hb
  | node v1 s1 p1 l1 r1 =>
    cases b with
    | nil => simpa [merge] using ha
    | node v2 s2 p2 l2 r2 =>
      rw [merge]
      by_cases hp : p1 > p2
      · simpa [if_pos hp, sync, prioLe] using ha
      · simpa [if_neg hp, sync, prioLe] using hb

theorem heapOKb_merge {a b : Tree} (ha : heapOKb a = true) (hb : heapOKb b = true) :
    heapOKb (merge a b) = true := by
  induction a, b using merge.induct with
  | case1 n2 => simpa [merge] using hb
  | case2 n1 h =>
    cases n1 with
    | nil => exact absurd rfl h
    | node v s p l r => simpa [merge] using ha
  | case3 v1 s1 p1 l1 r1 v2 s2 p2 l2 r2 hp ih =>
    rw [merge]
    simp only [if_pos hp, sync, heapOKb, Bool.and_eq_true]
    have ha' := ha
    simp only [heapOKb, Bool.and_eq_true] at ha'
    refine ⟨⟨⟨ha'.1.1.1, ?_⟩, ha'.1.2⟩, ih ha'.2 hb⟩
    exact prioLe_merge ha'.1.1.2 (by simp [prioLe]; omega)
  | case4 v1 s1 p1 l1 r1 v2 s2 p2 l2 r2 hp ih =>
    rw [merge]
    simp only [if_neg hp, sync, heapOKb, Bool.and_eq_true]
    have hb' := hb
    simp only [heapOKb, Bool.and_eq_true] at hb'
    refine ⟨⟨⟨prioLe_merge (by simp [prioLe]; omega) hb'.1.1.1, hb'.1.1.2⟩, ih ha hb'.1.2⟩, hb'.2⟩

/-! ### Lemmas about `split` -/

theorem split_inorder (n : Tree) (i : Int) :
    inorder (split n i).1 ++ inorder (split n i).2 = inorder n := by
  induction n generalizing i with
  | nil => simp [split, inorder]
  | node v s p l r ihl ihr =>
    rw [split]
    by_cases h1 : i < 0
    · simp [h1, inorder]
    · by_cases h2 : i ≥ s
      · simp [h1, h2, inorder]
      · by_cases h3 : i - csize l < 0
        · simp only [if_neg h1, if_neg h2, if_pos h3, inorder_sync, inorder]
          rw [← List.append_assoc, ihl]
        · by_cases h4 : i - csize l > 0
          · simp only [if_neg h1, if_neg h2, if_neg h3, if_pos h4, inorder_sync, inorder]
            simp only [List.cons_append, List.append_assoc]
            rw [ihr]
          · simp only [if_neg h1, if_neg h2, if_neg h3, if_neg h4, inorder_sync, inorder]
            simp

theorem count_split (n : Tree) (i : Int) :
    count (split n i).1 + count (split n i).2 = count n := by
  have h := congrArg List.length (split_inorder n i)
  simpa [length_inorder] using h

theorem sizeOKb_split {n : Tree} (h : sizeOKb n = true) (i : Int) :
    sizeOKb (split n i).1 = true ∧ sizeOKb (split n i).2 = true := by
  induction n generalizing i with
  | nil => simp [split, sizeOKb]
  | node v s p l r ihl ihr =>
    simp only [sizeOKb, Bool.and_eq_true, decide_eq_true_eq] at h
    rw [split]
    by_cases h1 : i < 0
    · simp only [if_pos h1, sizeOKb, Bool.and_eq_true, decide_eq_true_eq]
      exact ⟨trivial, ⟨h.1.1, h.1.2⟩, h.2⟩
    · by_cases h2 : i ≥ s
      · simp only [if_neg h1, if_pos h2, sizeOKb, Bool.and_eq_true, decide_eq_true_eq]
        exact ⟨⟨⟨h.1.1, h.1.2⟩, h.2⟩, trivial⟩
      · by_cases h3 : i - csize l < 0
        · simp only [if_neg h1, if_neg h2, if_pos h3, sizeOKb_sync_node, Bool.and_eq_true]
          exact ⟨(ihl h.1.2 i).1, (ihl h.1.2 i).2, h.2⟩
        · by_cases h4 : i - csize l > 0
          · simp only [if_neg h1, if_neg h2, if_neg h3, if_pos h4, sizeOKb_sync_node,
              Bool.and_eq_true]
            exact ⟨⟨h.1.2, (ihr h.2 i).1⟩, (ihr h.2 i).2⟩
          · simp only [if_neg h1, if_neg h2, if_neg h3, if_neg h4, sizeOKb_sync_node,
              Bool.and_eq_true]
            exact ⟨⟨h.1.2, rfl⟩, h.2⟩

theorem heapOKb_split {n : Tree} (h : heapOKb n = true) (i : Int) :
    (heapOKb (split n i).1 = true ∧ heapOKb (split n i).2 = true) ∧
      ∀ p : Int, prioLe n p = true →
        prioLe (split n i).1 p = true ∧ prioLe (split n i).2 p = true := by
  induction n generalizing i with
  | nil => simp [split, heapOKb, prioLe]
  | node v s p0 l r ihl ihr =>
    simp only [heapOKb, Bool.and_eq_true] at h
    obtain ⟨⟨⟨hA, hB⟩, hC⟩, hD⟩ := h
    rw [split]
    by_cases h1 : i < 0
    · simp only [if_pos h1]
      refine ⟨⟨rfl, ?_⟩, fun p hp => ⟨rfl, hp⟩⟩
      simp only [heapOKb, Bool.and_eq_true]
      exact ⟨⟨⟨hA, hB⟩, hC⟩, hD⟩
    · by_cases h2 : i ≥ s
      · simp only [if_neg h1, if_pos h2]
        refine ⟨⟨?_, rfl⟩, fun p hp => ⟨hp, rfl⟩⟩
        simp only [heapOKb, Bool.and_eq_true]
        exact ⟨⟨⟨hA, hB⟩, hC⟩, hD⟩
      · have hp0 : prioLe (Tree.node v s p0 l r) p0 = true := by simp [prioLe]
        by_cases h3 : i - csize l < 0
        · simp only [if_neg h1, if_neg h2, if_pos h3, sync]
          refine ⟨⟨(ihl hC i).1.1, ?_⟩, fun p hp => ⟨?_, ?_⟩⟩
          · simp only [heapOKb, Bool.and_eq_true]
            exact ⟨⟨⟨((ihl hC i).2 p0 hA).2, hB⟩, (ihl hC i).1.2⟩, hD⟩
          · simp only [prioLe, decide_eq_true_eq] at hp
            exact ((ihl hC i).2 p (prioLe_trans hA hp)).1
          · simpa [prioLe] using hp
        · by_cases h4 : i - csize l > 0
          · simp only [if_neg h1, if_neg h2, if_neg h3, if_pos h4, sync]
            refine ⟨⟨?_, (ihr hD i).1.2⟩, fun p hp => ⟨?_, ?_⟩⟩
            · simp only [heapOKb, Bool.and_eq_true]
              exact ⟨⟨⟨hA, ((ihr hD i).2 p0 hB).1⟩, hC⟩, (ihr hD i).1.1⟩
            · simpa [prioLe] using hp
            · simp only [prioLe, decide_eq_true_eq] at hp
              exact ((ihr hD i).2 p (prioLe_trans hB hp)).2
          · simp only [if_neg h1, if_neg h2, if_neg h3, if_neg h4, sync]
            refine ⟨⟨?_, hD⟩, fun p hp => ⟨?_, ?_⟩⟩
            · simp only [heapOKb, Bool.and_eq_true]
              exact ⟨⟨⟨hA, rfl⟩, hC⟩, trivial⟩
            · simpa [prioLe] using hp
            · simp only [prioLe, decide_eq_true_eq] at hp
              exact prioLe_trans hB hp

/-! ### `Find` descends to the in-order element -/

theorem findLoop_eq {n : Tree} (h : sizeOKb n = true) {i : Int}
    (h0 : 0 ≤ i) (h1 : i < csize n) :
    findLoop n i = (inorder n).getD i.toNat 0 := by
  induction n generalizing i with
  | nil => simp [csize] at h1; omega
  | node v s p l r ihl ihr =>
    simp only [sizeOKb, Bool.and_eq_true, decide_eq_true_eq] at h
    obtain ⟨⟨hs, hl⟩, hr⟩ := h
    have hcl : csize l = (count l : Int) := csize_eq_count hl
    have hcr : csize r = (count r : Int) := csize_eq_count hr
    rw [findLoop, inorder]
    by_cases h3 : i - csize l < 0
    · rw [if_pos h3, ihl hl h0 (by omega)]
      rw [List.getD_append _ _ _ _ (by rw [length_inorder]; omega)]
    · by_cases h4 : i - csize l > 0
      · rw [if_neg h3, if_pos h4, ihr hr (by omega) (by simp [csize] at h1; omega)]
        rw [List.getD_append_right _ _ _ _ (by rw [length_inorder]; omega)]
        rw [length_inorder]
        have : i.toNat - count l = (i - csize l - 1).toNat + 1 := by omega
        rw [this, List.getD_cons_succ]
      · rw [if_neg h3, if_neg h4]
        have hi : i = csize l := by omega
        rw [List.getD_append_right _ _ _ _ (by rw [length_inorder]; omega)]
        rw [length_inorder]
        have : i.toNat - count l = 0 := by omega
        rw [this, List.getD_cons_zero]

/-! ### `export` writes the in-order sequence -/

theorem set_at_middle (A C : List Int) (b v : Int) :
    (A ++ b :: C).set A.length v = A ++ v :: C := by
  induction A with
  | nil => rfl
  | cons a A ih => simp [List.set, ih]

theorem writeAt_middle (A C : List Int) (b v : Int) :
    writeAt (A ++ b :: C) (A.length : Int) v = some (A ++ v :: C) := by
  rw [writeAt, if_pos (by constructor <;> simp)]
  rw [Int.toNat_natCast, set_at_middle]

theorem exportRec_eq {n : Tree} (h : sizeOKb n = true) :
    ∀ (A mid C : List Int), mid.length = count n →
      exportRec (A ++ mid ++ C) (A.length : Int) n
        = some (A ++ inorder n ++ C) := by
  induction n with
  | nil =>
    intro A mid C hmid
    simp only [count] at hmid
    rw [List.length_eq_zero] at hmid
    subst hmid
    simp [exportRec, inorder]
  | node v s p l r ihl ihr =>
    intro A mid C hmid
    simp only [sizeOKb, Bool.and_eq_true, decide_eq_true_eq] at h
    obtain ⟨⟨hs, hl⟩, hr⟩ := h
    simp only [count] at hmid
    -- decompose mid into the left part, the written cell, and the right part
    obtain ⟨ml, mrest, hsplit, hml⟩ :
        ∃ ml mrest, mid = ml ++ mrest ∧ ml.length = count l :=
      ⟨mid.take (count l), mid.drop (count l), (mid.take_append_drop _).symm,
        by rw [List.length_take]; omega⟩
    have hmrest : mrest.length = count r + 1 := by
      have := congrArg List.length hsplit
      simp [hml] at this
      omega
    obtain ⟨mv, mr, rfl⟩ : ∃ mv mr, mrest = mv :: mr := by
      cases mrest with
      | nil => simp at hmrest
      | cons a t => exact ⟨a, t, rfl⟩
    have hmr : mr.length = count r := by simpa using hmrest
    subst hsplit
    rw [exportRec]
    have step1 : exportRec (A ++ (ml ++ mv :: mr) ++ C) (A.length : Int) l
        = some (A ++ inorder l ++ (mv :: (mr ++ C))) := by
      have := ihl hl A ml (mv :: (mr ++ C)) hml
      simpa [List.append_assoc] using this
    rw [step1]
    simp only [Option.bind_eq_bind, Option.some_bind]
    have hpos : (A.length : Int) + csize l = ((A ++ inorder l).length : Int) := by
      rw [csize_eq_count hl, List.length_append, length_inorder]
      push_cast
      ring
    have step2 : writeAt (A ++ inorder l ++ (mv :: (mr ++ C))) ((A.length : Int) + csize l) v
        = some ((A ++ inorder l) ++ v :: (mr ++ C)) := by
      rw [hpos]
      exact writeAt_middle (A ++ inorder l) (mr ++ C) mv v
    rw [step2]
    simp only [Option.bind_eq_bind, Option.some_bind]
    have hpos2 : (A.length : Int) + csize l + 1 = (((A ++ inorder l) ++ [v]).length : Int) := by
      rw [csize_eq_count hl]
      simp [length_inorder]
      ring
    have step3 : exportRec (((A ++ inorder l) ++ [v]) ++ mr ++ C)
        ((((A ++ inorder l) ++ [v]).length : Int)) r
        = some (((A ++ inorder l) ++ [v]) ++ inorder r ++ C) :=
      ihr hr _ mr C hmr
    have heq : (A ++ inorder l) ++ v :: (mr ++ C) = (((A ++ inorder l) ++ [v]) ++ mr ++ C) := by
      simp [List.append_assoc]
    rw [heq, hpos2, step3, inorder]
    simp [List.append_assoc]

theorem ExportT_some {root : Tree} (h : sizeOKb root = true) :
    ExportT (some root) = some (inorder root) := by
  cases root with
  | nil => simp [ExportT, inorder]
  | node v s p l r =>
    have hu : ExportT (some (Tree.node v s p l r))
        = if csize (Tree.node v s p l r) < 0 then none
          else exportRec (List.replicate (csize (Tree.node v s p l r)).toNat 0) 0
            (Tree.node v s p l r) := rfl
    rw [hu]
    have hc : csize (Tree.node v s p l r) = (count (Tree.node v s p l r) : Int) :=
      csize_eq_count h
    rw [if_neg (by omega)]
    have := exportRec_eq h [] (List.replicate (count (Tree.node v s p l r)) 0) [] (by simp)
    rw [hc, Int.toNat_natCast]
    simpa using this

/-! ### Invariant preservation by every public operation -/

theorem sizeOKb_leafNode (v p : Int) : sizeOKb (leafNode v p) = true := by
  simp [leafNode, sizeOKb, csize]

theorem heapOKb_leafNode (v p : Int) : heapOKb (leafNode v p) = true := by
  simp [leafNode, heapOKb, prioLe]

theorem inorder_leafNode (v p : Int) : inorder (leafNode v p) = [v] := by
  simp [leafNode, inorder]

theorem sizeOKb_chainBack_aux (vps : List (Int × Int)) :
    ∀ acc : Tree, sizeOKb acc = true →
      sizeOKb (vps.foldl (fun a vp => merge a (leafNode vp.1 vp.2)) acc) = true := by
  induction vps with
  | nil => intro acc h; simpa using h
  | cons vp vps ih =>
    intro acc h
    exact ih _ (sizeOKb_merge h (sizeOKb_leafNode _ _))

theorem sizeOKb_chainBack (vps : List (Int × Int)) : sizeOKb (chainBack vps) = true :=
  sizeOKb_chainBack_aux vps .nil rfl

theorem sizeOKb_chainFront_aux (vps : List (Int × Int)) :
    ∀ acc : Tree, sizeOKb acc = true →
      sizeOKb (vps.foldl (fun a vp => merge (leafNode vp.1 vp.2) a) acc) = true := by
  induction vps with
  | nil => intro acc h; simpa using h
  | cons vp vps ih =>
    intro acc h
    exact ih _ (sizeOKb_merge (sizeOKb_leafNode _ _) h)

theorem sizeOKb_chainFront (vps : List (Int × Int)) : sizeOKb (chainFront vps) = true :=
  sizeOKb_chainFront_aux vps .nil rfl

theorem heapOKb_chainBack_aux (vps : List (Int × Int)) :
    ∀ acc : Tree, heapOKb acc = true →
      heapOKb (vps.foldl (fun a vp => merge a (leafNode vp.1 vp.2)) acc) = true := by
  induction vps with
  | nil => intro acc h; simpa using h
  | cons vp vps ih =>
    intro acc h
    exact ih _ (heapOKb_merge h (heapOKb_leafNode _ _))

theorem heapOKb_chainBack (vps : List (Int × Int)) : heapOKb (chainBack vps) = true :=
  heapOKb_chainBack_aux vps .nil rfl

theorem heapOKb_chainFront_aux (vps : List (Int × Int)) :
    ∀ acc : Tree, heapOKb acc = true →
      heapOKb (vps.foldl (fun a vp => merge (leafNode vp.1 vp.2) a) acc) = true := by
  induction vps with
  | nil => intro acc h; simpa using h
  | cons vp vps ih =>
    intro acc h
    exact ih _ (heapOKb_merge (heapOKb_leafNode _ _) h)

theorem heapOKb_chainFront (vps : List (Int × Int)) : heapOKb (chainFront vps) = true :=
  heapOKb_chainFront_aux vps .nil rfl

theorem inorder_chainBack_aux (vps : List (Int × Int)) :
    ∀ acc : Tree, inorder (vps.foldl (fun a vp => merge a (leafNode vp.1 vp.2)) acc)
      = inorder acc ++ vps.map Prod.fst := by
  induction vps with
  | nil => intro acc; simp
  | cons vp vps ih =>
    intro acc
    rw [List.foldl_cons, ih, inorder_merge, inorder_leafNode]
    simp

theorem inorder_chainBack (vps : List (Int × Int)) :
    inorder (chainBack vps) = vps.map Prod.fst := by
  have := inorder_chainBack_aux vps .nil
  simpa [inorder] using this

theorem inorder_chainFront_aux (vps : List (Int × Int)) :
    ∀ acc : Tree, inorder (vps.foldl (fun a vp => merge (leafNode vp.1 vp.2) a) acc)
      = (vps.map Prod.fst).reverse ++ inorder acc := by
  induction vps with
  | nil => intro acc; simp
  | cons vp vps ih =>
    intro acc
    rw [List.foldl_cons, ih, inorder_merge, inorder_leafNode]
    simp

theorem inorder_chainFront (vps : List (Int × Int)) :
    inorder (chainFront vps) = (vps.map Prod.fst).reverse := by
  have := inorder_chainFront_aux vps .nil
  simpa [inorder] using this

theorem treapSizeOK_PushBack {t : Treap} (h : treapSizeOK t = true)
    (vps : List (Int × Int)) : treapSizeOK (PushBack t vps) = true := by
  cases t with
  | none => rfl
  | some root =>
    simp only [PushBack, treapSizeOK] at h ⊢
    exact sizeOKb_merge h (sizeOKb_chainBack vps)

theorem treapSizeOK_PushFront {t : Treap} (h : treapSizeOK t = true)
    (vps : List (Int × Int)) : treapSizeOK (PushFront t vps) = true := by
  cases t with
  | none => rfl
  | some root =>
    simp only [PushFront, treapSizeOK] at h ⊢
    exact sizeOKb_merge (sizeOKb_chainFront vps) h

theorem treapSizeOK_Create (vps : List (Int × Int)) :
    treapSizeOK (Create vps) = true :=
  @treapSizeOK_PushBack (some .nil) rfl vps

theorem treapSizeOK_MergeT {t1 t2 : Treap} (h1 : treapSizeOK t1 = true)
    (h2 : treapSizeOK t2 = true) : treapSizeOK (MergeT t1 t2) = true := by
  cases t1 with
  | none => simpa [MergeT] using h2
  | some r1 =>
    cases t2 with
    | none => simpa [MergeT] using h1
    | some r2 =>
      simp only [MergeT, treapSizeOK] at h1 h2 ⊢
      exact sizeOKb_merge h1 h2

theorem treapSizeOK_SplitT {t : Treap} (h : treapSizeOK t = true) (i : Int) :
    treapSizeOK (SplitT t i).1 = true ∧ treapSizeOK (SplitT t i).2 = true := by
  cases t with
  | none => exact ⟨rfl, rfl⟩
  | some root =>
    simp only [SplitT, treapSizeOK] at h ⊢
    exact sizeOKb_split h i

theorem treapSizeOK_Insert {t : Treap} (h : treapSizeOK t = true) (i v p : Int) :
    treapSizeOK (Insert t i v p) = true := by
  cases t with
  | none => rfl
  | some root =>
    cases root with
    | nil => simpa [Insert, treapSizeOK] using sizeOKb_leafNode v p
    | node vv ss pp l r =>
      rw [Insert]
      split_ifs with h1 h2
      · exact treapSizeOK_PushFront h _
      · exact treapSizeOK_PushBack h _
      · simp only [treapSizeOK] at h ⊢
        exact sizeOKb_merge
          (sizeOKb_merge (sizeOKb_split h _).1 (sizeOKb_leafNode v p))
          (sizeOKb_split h _).2
      · simp

theorem treapSizeOK_Cut {t : Treap} (h : treapSizeOK t = true) (il ir : Int) :
    treapSizeOK (Cut t il ir) = true := by
  cases t with
  | none => rfl
  | some root =>
    cases root with
    | nil => rfl
    | node vv ss pp l r =>
      rw [Cut]
      split_ifs with h1 h2
      · exact h
      · exact h
      · simp only [treapSizeOK] at h ⊢
        exact sizeOKb_merge (sizeOKb_split h _).1
          (sizeOKb_split (sizeOKb_split h _).2 _).2
      · simp

theorem treapSizeOK_Delete {t : Treap} (h : treapSizeOK t = true) (i : Int) :
    treapSizeOK (Delete t i) = true := by
  cases t with
  | none => rfl
  | some root =>
    cases root with
    | nil => rfl
    | node vv ss pp l r =>
      rw [Delete]
      split_ifs with h1
      · exact h
      · simp only [treapSizeOK] at h ⊢
        exact sizeOKb_merge (sizeOKb_split h _).1
          (sizeOKb_split (sizeOKb_split h _).2 _).2
      · simp

theorem treapHeapOK_PushBack {t : Treap} (h : treapHeapOK t = true)
    (vps : List (Int × Int)) : treapHeapOK (PushBack t vps) = true := by
  cases t with
  | none => rfl
  | some root =>
    simp only [PushBack, treapHeapOK] at h ⊢
    exact heapOKb_merge h (heapOKb_chainBack vps)

theorem treapHeapOK_PushFront {t : Treap} (h : treapHeapOK t = true)
    (vps : List (Int × Int)) : treapHeapOK (PushFront t vps) = true := by
  cases t with
  | none => rfl
  | some root =>
    simp only [PushFront, treapHeapOK] at h ⊢
    exact heapOKb_merge (heapOKb_chainFront vps) h

theorem treapHeapOK_Create (vps : List (Int × Int)) :
    treapHeapOK (Create vps) = true :=
  @treapHeapOK_PushBack (some .nil) rfl vps

theorem treapHeapOK_MergeT {t1 t2 : Treap} (h1 : treapHeapOK t1 = true)
    (h2 : treapHeapOK t2 = true) : treapHeapOK (MergeT t1 t2) = true := by
  cases t1 with
  | none => simpa [MergeT] using h2
  | some r1 =>
    cases t2 with
    | none => simpa [MergeT] using h1
    | some r2 =>
      simp only [MergeT, treapHeapOK] at h1 h2 ⊢
      exact heapOKb_merge h1 h2

theorem treapHeapOK_SplitT {t : Treap} (h : treapHeapOK t = true) (i : Int) :
    treapHeapOK (SplitT t i).1 = true ∧ treapHeapOK (SplitT t i).2 = true := by
  cases t with
  | none => exact ⟨rfl, rfl⟩
  | some root =>
    simp only [SplitT, treapHeapOK] at h ⊢
    exact (heapOKb_split h i).1

theorem treapHeapOK_Insert {t : Treap} (h : treapHeapOK t = true) (i v p : Int) :
    treapHeapOK (Insert t i v p) = true := by
  cases t with
  | none => rfl
  | some root =>
    cases root with
    | nil => simpa [Insert, treapHeapOK] using heapOKb_leafNode v p
    | node vv ss pp l r =>
      rw [Insert]
      split_ifs with h1 h2
      · exact treapHeapOK_PushFront h _
      · exact treapHeapOK_PushBack h _
      · simp only [treapHeapOK] at h ⊢
        exact heapOKb_merge
          (heapOKb_merge (heapOKb_split h _).1.1 (heapOKb_leafNode v p))
          (heapOKb_split h _).1.2
      · simp

theorem treapHeapOK_Cut {t : Treap} (h : treapHeapOK t = true) (il ir : Int) :
    treapHeapOK (Cut t il ir) = true := by
  cases t with
  | none => rfl
  | some root =>
    cases root with
    | nil => rfl
    | node vv ss pp l r =>
      rw [Cut]
      split_ifs with h1 h2
      · exact h
      · exact h
      · simp only [treapHeapOK] at h ⊢
        exact heapOKb_merge (heapOKb_split h _).1.1
          (heapOKb_split (heapOKb_split h _).1.2 _).1.2
      · simp

theorem treapHeapOK_Delete {t : Treap} (h : treapHeapOK t = true) (i : Int) :
    treapHeapOK (Delete t i) = true := by
  cases t with
  | none => rfl
  | some root =>
    cases root with
    | nil => rfl
    | node vv ss pp l r =>
      rw [Delete]
      split_ifs with h1
      · exact h
      · simp only [treapHeapOK] at h ⊢
        exact heapOKb_merge (heapOKb_split h _).1.1
          (heapOKb_split (heapOKb_split h _).1.2 _).1.2
      · simp

theorem reachable_sizeOK {t : Treap} (h : Reachable t) : treapSizeOK t = true := by
  induction h with
  | create vps => exact treapSizeOK_Create vps
  | mergeT _ _ ih1 ih2 => exact treapSizeOK_MergeT ih1 ih2
  | splitL i _ ih => exact (treapSizeOK_SplitT ih i).1
  | splitR i _ ih => exact (treapSizeOK_SplitT ih i).2
  | insert i v p _ ih => exact treapSizeOK_Insert ih i v p
  | pushFront vps _ ih => exact treapSizeOK_PushFront ih vps
  | pushBack vps _ ih => exact treapSizeOK_PushBack ih vps
  | cut il ir _ ih => exact treapSizeOK_Cut ih il ir
  | delete i _ ih => exact treapSizeOK_Delete ih i

theorem reachable_heapOK {t : Treap} (h : Reachable t) : treapHeapOK t = true := by
  induction h with
  | create vps => exact treapHeapOK_Create vps
  | mergeT _ _ ih1 ih2 => exact treapHeapOK_MergeT ih1 ih2
  | splitL i _ ih => exact (treapHeapOK_SplitT ih i).1
  | splitR i _ ih => exact (treapHeapOK_SplitT ih i).2
  | insert i v p _ ih => exact treapHeapOK_Insert ih i v p
  | pushFront vps _ ih => exact treapHeapOK_PushFront ih vps
  | pushBack vps _ ih => exact treapHeapOK_PushBack ih vps
  | cut il ir _ ih => exact treapHeapOK_Cut ih il ir
  | delete i _ ih => exact treapHeapOK_Delete ih i

/-! ### The instrumented reads return the state unchanged -/

theorem findLoopS_eq (n : Tree) (i : Int) : findLoopS n i = (n, findLoop n i) := by
  induction n generalizing i with
  | nil => rfl
  | node v s p l r ihl ihr =>
    rw [findLoopS, findLoop]
    by_cases h3 : i < csize l
    · simp [h3, ihl]
    · by_cases h4 : csize l < i
      · simp [h3, h4, ihr]
      · simp [h3, h4]

theorem exportRecS_eq (values : List Int) (position : Int) (n : Tree) :
    exportRecS values position n = (n, exportRec values position n) := by
  induction n generalizing values position with
  | nil => rfl
  | node v s p l r ihl ihr =>
    rw [exportRecS, exportRec]
    rw [ihl]
    cases hE : exportRec values position l with
    | none => simp [hE]
    | some values1 =>
      cases hW : writeAt values1 (position + csize l) v with
      | none => simp [hE, hW]
      | some values2 => simp [hE, hW, ihr]

/-! ### The claims -/

/-- C10: the read operations are pure: the instrumented embeddings of
`Find`, `Size` and `Export` return the tree exactly as it was, along with
the same results the plain embeddings compute. -/
theorem claim_C10 (t : Treap) (i : Int) :
    FindS t i = (t, FindT t i) ∧ SizeS t = (t, SizeT t) ∧
      ExportS t = (t, ExportT t) := by
  refine ⟨?_, ?_, ?_⟩
  · cases t with
    | none => rfl
    | some root =>
      cases root with
      | nil => rfl
      | node v s p l r =>
        simp only [FindS, FindT]
        by_cases h : i < 0 ∨ i ≥ csize (Tree.node v s p l r)
        · simp [if_pos h]
        · simp [if_neg h, findLoopS_eq]
  · cases t with
    | none => rfl
    | some root => cases root <;> rfl
  · cases t with
    | none => rfl
    | some root =>
      cases root with
      | nil => rfl
      | node v s p l r =>
        simp only [ExportS, ExportT]
        by_cases h : csize (Tree.node v s p l r) < 0
        · simp [if_pos h]
        · simp [if_neg h, exportRecS_eq]

/-- C9: `Delete(i)` is exactly `Cut(i, i)` as a state transformer, on every
treap state (nil handle and empty treap included) and every index,
agreeing on every no-op case. -/
theorem claim_C9 (t : Treap) (i : Int) : Delete t i = Cut t i i := by
  cases t with
  | none => rfl
  | some root =>
    cases root with
    | nil => rfl
    | node v s p l r =>
      simp only [Delete, Cut]
      rw [if_neg (by omega : ¬ i > i)]

/-- C5: after any finite sequence of public operations starting from
`Create`, every node's cached `size` equals `1 + leftSize + rightSize`. -/
theorem claim_C5 {t : Treap} (h : Reachable t) : treapSizeOK t = true :=
  reachable_sizeOK h

/-- Witness for C5 at a concrete reachable treap. -/
theorem claim_C5_witness :
    Reachable (Create [(1, 2)]) ∧ treapSizeOK (Create [(1, 2)]) = true :=
  ⟨Reachable.create _, claim_C5 (Reachable.create _)⟩

/-- C6: after any finite sequence of public operations and for any outcome
of the random priority draws, every node's priority is ≥ the priority of
each of its present children. -/
theorem claim_C6 {t : Treap} (h : Reachable t) : treapHeapOK t = true :=
  reachable_heapOK h

/-- Witness for C6 at a concrete reachable treap. -/
theorem claim_C6_witness :
    Reachable (Create [(1, 2), (5, 1)]) ∧ treapHeapOK (Create [(1, 2), (5, 1)]) = true :=
  ⟨Reachable.create _, claim_C6 (Reachable.create _)⟩

/-- C3: order fidelity: on every treap reachable through the public API,
for every index `0 ≤ i < Size()`, `Find(i)` equals element `i` of the
array returned by `Export()`. -/
theorem claim_C3 {t : Treap} (h : Reachable t) (i : Int)
    (h0 : 0 ≤ i) (h1 : i < SizeT t) :
    FindT t i = ((ExportT t).getD []).getD i.toNat 0 := by
  have hs := reachable_sizeOK h
  cases t with
  | none => simp [SizeT] at h1; omega
  | some root =>
    cases root with
    | nil => simp [SizeT] at h1; omega
    | node v s p l r =>
      simp only [treapSizeOK] at hs
      simp only [SizeT] at h1
      rw [ExportT_some hs]
      simp only [Option.getD_some, FindT]
      rw [if_neg (by omega)]
      exact findLoop_eq hs h0 h1

/-- Witness for C3 on the treap `Create(5)` at index 0. -/
theorem claim_C3_witness :
    Reachable (Create [(5, 0)]) ∧ (0 : Int) ≤ 0 ∧
      (0 : Int) < SizeT (Create [(5, 0)]) ∧
      FindT (Create [(5, 0)]) 0
        = ((ExportT (Create [(5, 0)])).getD []).getD ((0 : Int)).toNat 0 := by
  have hc : Create [(5, 0)] = some (leafNode 5 0) := by
    simp [Create, PushBack, chainBack, merge_nil_left, merge_nil_right, leafNode]
  refine ⟨Reachable.create _, le_refl 0, ?_, claim_C3 (Reachable.create _) 0 (le_refl 0) ?_⟩
  · rw [hc]; decide
  · rw [hc]; decide

/-- C4: split/merge round-trip: on any treap satisfying the size
invariant, for `0 ≤ k < Size`, merging the two halves of `Split(t, k)`
yields a treap whose `Export` equals the `Export` of the original. -/
theorem claim_C4 {t : Treap} (h : treapSizeOK t = true) (k : Int)
    (h0 : 0 ≤ k) (h1 : k < SizeT t) :
    ExportT (MergeT (SplitT t k).1 (SplitT t k).2) = ExportT t := by
  cases t with
  | none => simp [SizeT] at h1; omega
  | some root =>
    simp only [treapSizeOK] at h
    simp only [SplitT, MergeT]
    rw [ExportT_some (sizeOKb_merge (sizeOKb_split h k).1 (sizeOKb_split h k).2),
      ExportT_some h, inorder_merge, split_inorder]

/-- Witness for C4 on a singleton treap at k = 0. -/
theorem claim_C4_witness :
    treapSizeOK (some (leafNode 5 0)) = true ∧ (0 : Int) ≤ 0 ∧
      (0 : Int) < SizeT (some (leafNode 5 0)) ∧
      ExportT (MergeT (SplitT (some (leafNode 5 0)) 0).1
          (SplitT (some (leafNode 5 0)) 0).2)
        = ExportT (some (leafNode 5 0)) :=
  ⟨by decide, le_refl 0, by decide, claim_C4 (by decide) 0 (le_refl 0) (by decide)⟩

/-- C2 counterexample: `PushFront(1, 2)` on an empty treap produces the
sequence [2, 1], not [1, 2]: the loop merges each fresh node in *front* of
the chain built so far, reversing the given order. -/
theorem claim_C2_counterexample :
    ¬ ExportT (PushFront (Create []) [(1, 0), (2, 0)]) = some [1, 2] := by
  have h1 : Create ([] : List (Int × Int)) = some Tree.nil := by
    simp [Create, PushBack, chainBack, merge_nil_left]
  have h2 : PushFront (some Tree.nil) [(1, 0), (2, 0)]
      = some (Tree.node 1 2 0 (Tree.node 2 1 0 .nil .nil) .nil) := by
    norm_num [PushFront, chainFront, leafNode, merge_nil_left, merge_nil_right,
      merge_node, sync, csize]
  rw [h1, h2]
  decide

/-- C2 amended: `PushBack(v1..vk)` appends the values in the given order,
but `PushFront(v1..vk)` prepends them in *reversed* order: the result is
[vk,...,v1] followed by S. -/
theorem claim_C2_amended {root : Tree} (h : sizeOKb root = true) {S : List Int}
    (hS : ExportT (some root) = some S) (vps : List (Int × Int)) :
    ExportT (PushFront (some root) vps)
        = some ((vps.map Prod.fst).reverse ++ S) ∧
      ExportT (PushBack (some root) vps) = some (S ++ vps.map Prod.fst) := by
  rw [ExportT_some h] at hS
  injection hS with hS
  subst hS
  constructor
  · simp only [PushFront]
    rw [ExportT_some (sizeOKb_merge (sizeOKb_chainFront vps) h), inorder_merge,
      inorder_chainFront]
  · simp only [PushBack]
    rw [ExportT_some (sizeOKb_merge h (sizeOKb_chainBack vps)), inorder_merge,
      inorder_chainBack]

/-- Witness for the amended C2 on a singleton treap. -/
theorem claim_C2_amended_witness :
    sizeOKb (leafNode 5 0) = true ∧
      ExportT (some (leafNode 5 0)) = some [5] ∧
      ExportT (PushFront (some (leafNode 5 0)) [(1, 0), (2, 0)]) = some [2, 1, 5] ∧
      ExportT (PushBack (some (leafNode 5 0)) [(1, 0), (2, 0)]) = some [5, 1, 2] := by
  have h := @claim_C2_amended (leafNode 5 0) (by decide) [5]
    (by decide) [(1, 0), (2, 0)]
  exact ⟨by decide, by decide, by simpa using h.1, by simpa using h.2⟩

/-- C1 fails on the code: `Create(10,20,30,40)` with priorities (0,3,2,1)
has sequence [10,20,30,40], but `Cut(2,2)` then leaves [10,20] — it
removes positions 2 *and* 3, because the second split is given the
absolute index instead of one relative to the remainder. -/
theorem claim_C1_bug :
    ExportT (Create [(10, 0), (20, 3), (30, 2), (40, 1)]) = some [10, 20, 30, 40] ∧
      ExportT (Cut (Create [(10, 0), (20, 3), (30, 2), (40, 1)]) 2 2) = some [10, 20] := by
  have h1 : Create [(10, 0), (20, 3), (30, 2), (40, 1)]
      = some (Tree.node 20 4 3 (Tree.node 10 1 0 .nil .nil)
          (Tree.node 30 2 2 .nil (Tree.node 40 1 1 .nil .nil))) := by
    norm_num [Create, PushBack, chainBack, leafNode, merge_nil_left,
      merge_nil_right, merge_node, sync, csize]
  rw [h1]
  have h2 : Cut (some (Tree.node 20 4 3 (Tree.node 10 1 0 .nil .nil)
        (Tree.node 30 2 2 .nil (Tree.node 40 1 1 .nil .nil)))) 2 2
      = some (Tree.node 20 2 3 (Tree.node 10 1 0 .nil .nil) .nil) := by
    norm_num [Cut, split, csize, sync, merge_nil_left, merge_nil_right, merge_node]
  rw [h2]
  exact ⟨by decide, by decide⟩

/-- C7 fails on the code: `Create(10,20,30,40,50)` with priorities
(0,4,3,2,1) has sequence [10,20,30,40,50]; `Insert(3, 99)` should give
[10,20,30,99,40,50] but the buggy split sends the whole treap left, so 99
is appended: [10,20,30,40,50,99]. -/
theorem claim_C7_bug :
    ExportT (Create [(10, 0), (20, 4), (30, 3), (40, 2), (50, 1)])
        = some [10, 20, 30, 40, 50] ∧
      ExportT (Insert (Create [(10, 0), (20, 4), (30, 3), (40, 2), (50, 1)]) 3 99 0)
        = some [10, 20, 30, 40, 50, 99] := by
  have h1 : Create [(10, 0), (20, 4), (30, 3), (40, 2), (50, 1)]
      = some (Tree.node 20 5 4 (Tree.node 10 1 0 .nil .nil)
          (Tree.node 30 3 3 .nil (Tree.node 40 2 2 .nil
            (Tree.node 50 1 1 .nil .nil)))) := by
    norm_num [Create, PushBack, chainBack, leafNode, merge_nil_left,
      merge_nil_right, merge_node, sync, csize]
  rw [h1]
  have h2 : Insert (some (Tree.node 20 5 4 (Tree.node 10 1 0 .nil .nil)
        (Tree.node 30 3 3 .nil (Tree.node 40 2 2 .nil
          (Tree.node 50 1 1 .nil .nil))))) 3 99 0
      = some (Tree.node 20 6 4 (Tree.node 10 1 0 .nil .nil)
          (Tree.node 30 4 3 .nil (Tree.node 40 3 2 .nil
            (Tree.node 50 2 1 .nil (Tree.node 99 1 0 .nil .nil))))) := by
    norm_num [Insert, split, csize, sync, leafNode, merge_nil_left,
      merge_nil_right, merge_node]
  rw [h2]
  exact ⟨by decide, by decide⟩

/-- C8: graceful degradation: every public operation on the nil handle
returns normally (no-op or zero default), and out-of-range indices make
`Delete`/`Cut` leave the state unchanged and `Find` return 0. -/
theorem claim_C8 (t : Treap) (i il ir v p : Int) (vps : List (Int × Int)) :
    (i < 0 ∨ i ≥ SizeT t → Delete t i = t ∧ FindT t i = 0) ∧
      (il > ir ∨ ir < 0 ∨ il ≥ SizeT t → Cut t il ir = t) ∧
      Delete none i = none ∧ Cut none il ir = none ∧ FindT none i = 0 ∧
      SizeT none = 0 ∧ ExportT none = some [] ∧ Insert none i v p = none ∧
      PushFront none vps = none ∧ PushBack none vps = none ∧
      MergeT none t = t ∧ MergeT t none = t ∧ SplitT none i = (none, none) := by
  refine ⟨?_, ?_, rfl, rfl, rfl, rfl, rfl, rfl, rfl, rfl, ?_, ?_, rfl⟩
  · intro h
    cases t with
    | none => exact ⟨rfl, rfl⟩
    | some root =>
      cases root with
      | nil => exact ⟨rfl, rfl⟩
      | node vv ss pp l r =>
        simp only [SizeT] at h
        exact ⟨by simp [Delete, h], by simp [FindT, h]⟩
  · intro h
    cases t with
    | none => rfl
    | some root =>
      cases root with
      | nil => rfl
      | node vv ss pp l r =>
        simp only [SizeT] at h
        by_cases hgt : il > ir
        · simp [Cut, hgt]
        · have h2 : ir < 0 ∨ il ≥ csize (Tree.node vv ss pp l r) := by tauto
          simp [Cut, hgt, h2]
  · cases t <;> rfl
  · cases t <;> rfl

/-- Witness for C8 on a singleton treap with out-of-range inputs. -/
theorem claim_C8_witness :
    Delete (some (leafNode 7 0)) (-1) = some (leafNode 7 0) ∧
      FindT (some (leafNode 7 0)) (-1) = 0 ∧
      Cut (some (leafNode 7 0)) 1 0 = some (leafNode 7 0) ∧
      ExportT none = some [] := by
  have h := claim_C8 (some (leafNode 7 0)) (-1) 1 0 0 0 []
  exact ⟨(h.1 (by decide)).1, (h.1 (by decide)).2, h.2.1 (by decide),
    h.2.2.2.2.2.2.1⟩

end TreapGo
